import Mathlib

/-!
Verification of the kropr gadget-finder against its specification.

The development shallowly embeds the parts of the program that the
checked properties speak about:

* `src/rules.rs` — the tail-classifier predicates over decoded
  instructions (`is_ret`, `is_target_thunk`, `is_sys`, `is_jop`,
  `is_invalid`, `is_gadget_tail`);
* `src/binary.rs` — the two kernel-image patch passes
  (`apply_returnsites`, `patch_retpolines`) and the helper-section
  entry resolution they share;
* `src/bin/ropr.rs` — the deduplication collect, the range-argument
  processing, the gadget-line rendering, the thunk-address
  symbolization, and the output path of `write_gadgets` / `main`.

Machine integers are modelled as `Nat`/`Int` with explicit reductions
modulo `2 ^ 64` (or `2 ^ 32`, `256`) exactly where the Rust code's
release-mode wrapping semantics applies.  Fallible operations (slice
indexing, `panic!`-style aborts) return `Option`.
-/

set_option linter.unusedVariables false

namespace Kropr

/-! ## Instruction model

The decoder (iced_x86) is an external collaborator; the rules only
inspect the fields below.  Each field mirrors the accessor of the same
name used in `src/rules.rs`. -/

/-- The mnemonics distinguished by `src/rules.rs`; every other mnemonic
behaves uniformly and is collapsed into `other`. -/
inductive Mnemonic where
  | ret | jmp | call
  | iret | iretd | iretq
  | sysret | sysretq | sysexit | sysexitq
  | nop
  | other
  deriving DecidableEq

/-- iced_x86 `FlowControl` values distinguished by the rules. -/
inductive FlowControl where
  | next | conditionalBranch | callFlow | indirectCall
  | unconditionalBranch | indirectBranch | returnFlow | interrupt | exception
  deriving DecidableEq

/-- iced_x86 `OpKind` values distinguished by the rules. -/
inductive OpKind where
  | register | memory
  | nearBranch16 | nearBranch32 | nearBranch64
  | immediate | otherKind
  deriving DecidableEq

/-- The slice of a decoded iced_x86 `Instruction` that `src/rules.rs`
reads: `code() == INVALID`, `mnemonic()`, `flow_control()`,
`op0_kind()`, `near_branch_target()`, and whether `memory_base()` is
`EIP`/`RIP`. -/
structure Instr where
  invalid : Bool
  mnemonic : Mnemonic
  flow : FlowControl
  op0Kind : OpKind
  nearBranchTarget : Nat
  memBaseIsIP : Bool
  deriving DecidableEq

/-- The `(name, optional VA)` thunk table built in `main`. -/
abbrev ThunkList := List (List Char × Option Nat)

/-! ## rules.rs -/

/-- `rules.rs::is_ret`: `RET`, or a near-branch `JMP` whose target is
the (known) return thunk. -/
def is_ret (instr : Instr) (ret_thunk : Option Nat) : Bool :=
  match instr.mnemonic with
  | .ret => true
  | .jmp =>
    match ret_thunk with
    | none => false
    | some rt =>
      match instr.op0Kind with
      | .nearBranch64 | .nearBranch32 | .nearBranch16 =>
        instr.nearBranchTarget == rt
      | _ => false
  | _ => false

/-- `rules.rs::is_target_thunk`: a near-branch `JMP` whose target is the
return thunk or any known indirect thunk VA. -/
def is_target_thunk (instr : Instr) (ret_thunk : Option Nat)
    (thunks : ThunkList) : Bool :=
  match instr.mnemonic with
  | .jmp =>
    match instr.op0Kind with
    | .nearBranch64 | .nearBranch32 | .nearBranch16 =>
      let target := instr.nearBranchTarget
      if ret_thunk == some target then true
      else
        thunks.any (fun p =>
          match p.2 with
          | some addr => addr == target
          | none => false)
    | _ => false
  | _ => false

/-- `rules.rs::is_sys`. -/
def is_sys (instr : Instr) : Bool :=
  match instr.mnemonic with
  | .iret | .iretd | .iretq => true
  | .sysret | .sysretq | .sysexit | .sysexitq => true
  | _ => false

/-- `rules.rs::is_jop`: `JMP`/`CALL` with a register operand or a memory
operand not based on the instruction pointer; in noisy mode any
`JMP`/`CALL`. -/
def is_jop (instr : Instr) (noisy : Bool) : Bool :=
  match instr.mnemonic with
  | .jmp =>
    if noisy then true
    else
      match instr.op0Kind with
      | .register => true
      | .memory => !instr.memBaseIsIP
      | _ => false
  | .call =>
    if noisy then true
    else
      match instr.op0Kind with
      | .register => true
      | .memory => !instr.memBaseIsIP
      | _ => false
  | _ => false

/-- `rules.rs::is_invalid`. -/
def is_invalid (instr : Instr) : Bool := instr.invalid

/-- `rules.rs::is_gadget_tail`, with its early-return structure kept. -/
def is_gadget_tail (instr : Instr) (rop sys jop noisy : Bool)
    (ret_thunk : Option Nat) (thunks : ThunkList) : Bool :=
  if is_invalid instr then false
  else if instr.flow == FlowControl.next then false
  else if rop && is_target_thunk instr ret_thunk thunks then true
  else if rop && is_ret instr ret_thunk then true
  else if sys && is_sys instr then true
  else if jop && is_jop instr noisy then true
  else false

/-- C2: `is_gadget_tail` holds exactly when the instruction is valid,
its flow control is not `Next`, and
`(rop ∧ (is_ret ∨ is_target_thunk)) ∨ (sys ∧ is_sys) ∨ (jop ∧ is_jop)`,
for every decoded instruction and flag combination. -/
theorem is_gadget_tail_iff (instr : Instr) (rop sys jop noisy : Bool)
    (ret_thunk : Option Nat) (thunks : ThunkList) :
    is_gadget_tail instr rop sys jop noisy ret_thunk thunks = true ↔
      (¬ is_invalid instr = true ∧ instr.flow ≠ FlowControl.next ∧
        ((rop = true ∧ (is_ret instr ret_thunk = true ∨
            is_target_thunk instr ret_thunk thunks = true)) ∨
         (sys = true ∧ is_sys instr = true) ∨
         (jop = true ∧ is_jop instr noisy = true))) := by
  unfold is_gadget_tail
  by_cases h1 : is_invalid instr = true
  · simp [h1]
  · by_cases h2 : instr.flow = FlowControl.next
    · simp [h1, h2]
    · simp only [h1, h2, Bool.false_eq_true, if_false, beq_iff_eq, if_neg h2,
        Bool.and_eq_true, ne_eq, not_false_iff, true_and]
      by_cases h3 : rop = true <;>
        by_cases h4 : is_target_thunk instr ret_thunk thunks = true <;>
        by_cases h5 : is_ret instr ret_thunk = true <;>
        by_cases h6 : sys = true <;>
        by_cases h7 : is_sys instr = true <;>
        by_cases h8 : jop = true <;>
        by_cases h9 : is_jop instr noisy = true <;>
        simp [h3, h4, h5, h6, h7, h8, h9]

/-! ## ropr.rs: deduplication (`collect::<FxHashMap<_, _>>()`)

`Gadget` equality and hashing are by canonical textual form, so the map
key is the canonical text; the scan emits `(gadget, address)` pairs and
`main` collects them into an `FxHashMap`.  `FromIterator`/`Extend` for a
hash map inserts the pairs in iteration order, each insertion replacing
any existing binding of the same key.  The map is modelled as an
association list with replacing insertion. -/

/-- Canonical gadget text, the dedup key. -/
abbrev GadgetText := List Char

/-- One hash-map insertion: replace an existing binding of the key, or
append a new binding. -/
def hmInsert : List (GadgetText × Nat) → GadgetText → Nat → List (GadgetText × Nat)
  | [], k, v => [(k, v)]
  | p :: rest, k, v =>
    if p.1 = k then (k, v) :: rest else p :: hmInsert rest k v

/-- `collect::<FxHashMap<_, _>>()` over the scan's `(gadget, address)`
stream: insert each pair in iteration order. -/
def collectToMap (pairs : List (GadgetText × Nat)) : List (GadgetText × Nat) :=
  pairs.foldl (fun m p => hmInsert m p.1 p.2) []

/-- Map lookup. -/
def mapLookup : List (GadgetText × Nat) → GadgetText → Option Nat
  | [], _ => none
  | p :: rest, k => if p.1 = k then some p.2 else mapLookup rest k

/-- The value paired with the last occurrence of a key in the scan
stream (the binding a replacing hash-map insert leaves behind). -/
def lastBinding : List (GadgetText × Nat) → GadgetText → Option Nat
  | [], _ => none
  | p :: rest, k =>
    match lastBinding rest k with
    | some v => some v
    | none => if p.1 = k then some p.2 else none

/-- The canonical text of a bare `ret` gadget. -/
def retText : GadgetText := ['r', 'e', 't', ';']

/-- C1 counterexample: two scanned gadgets with identical canonical text
at addresses 5 and 10 (the scan emits tails in ascending offset order);
the surviving address is 10, the address inserted last, not the minimum
5. -/
theorem dedup_not_min_counterexample :
    mapLookup (collectToMap [(retText, 5), (retText, 10)]) retText = some 10 ∧
    Nat.min 5 10 = 5 ∧ some (10 : Nat) ≠ some (5 : Nat) := by
  decide

theorem mapLookup_hmInsert (m : List (GadgetText × Nat)) (k k' : GadgetText) (v : Nat) :
    mapLookup (hmInsert m k v) k' =
      if k' = k then some v else mapLookup m k' := by
  induction m with
  | nil =>
    by_cases h : k' = k
    · subst h; simp [hmInsert, mapLookup]
    · simp [hmInsert, mapLookup, h, Ne.symm h]
  | cons p rest ih =>
    by_cases hp : p.1 = k
    · by_cases h : k' = k
      · subst h; simp [hmInsert, mapLookup, hp]
      · simp [hmInsert, mapLookup, hp, h, Ne.symm h]
    · by_cases h2 : p.1 = k'
      · have hkk : ¬ k' = k := fun hh => hp (h2.trans hh)
        simp [hmInsert, mapLookup, hp, h2, hkk]
      · simp [hmInsert, mapLookup, hp, h2, ih]

theorem mapLookup_foldl_hmInsert (pairs : List (GadgetText × Nat))
    (m : List (GadgetText × Nat)) (k : GadgetText) :
    mapLookup (pairs.foldl (fun m p => hmInsert m p.1 p.2) m) k =
      match lastBinding pairs k with
      | some v => some v
      | none => mapLookup m k := by
  induction pairs generalizing m with
  | nil => simp [lastBinding]
  | cons p rest ih =>
    simp only [List.foldl_cons, ih, lastBinding]
    cases hrest : lastBinding rest k with
    | some v => simp
    | none =>
      simp only [mapLookup_hmInsert]
      by_cases h : p.1 = k
      · subst h; simp
      · simp [h, Ne.symm h]

/-- C1 amended: with `uniq` on, when several scanned gadgets have
identical canonical text, the `(gadget, address)` pair surviving the
`FxHashMap` collection is the one inserted *last* in scan iteration
order (each insertion replaces the previous binding); the minimum
address is not selected. -/
theorem dedup_keeps_last_inserted (pairs : List (GadgetText × Nat)) (k : GadgetText) :
    mapLookup (collectToMap pairs) k = lastBinding pairs k := by
  unfold collectToMap
  rw [mapLookup_foldl_hmInsert]
  cases lastBinding pairs k <;> simp [mapLookup]

/-! ## binary.rs: image patch passes

Byte buffers are `List Nat` (each element a `u8` value).  `usize`
arithmetic wraps modulo `2 ^ 64` (release semantics); out-of-bounds
slice accesses, which abort the Rust process, are modelled by `none`. -/

/-- `2 ^ 64`, the `usize` modulus. -/
def W64 : Nat := 18446744073709551616

/-- Release-mode wrapping `usize` subtraction `a - b`. -/
def wrapSub64 (a b : Nat) : Nat := (a + (W64 - b % W64)) % W64

theorem wrapSub64_of_le (a b : Nat) (hba : b ≤ a) (ha : a < W64) :
    wrapSub64 a b = a - b := by
  simp only [wrapSub64, W64] at ha ⊢
  omega

/-- Overwrite the `seq.length` bytes starting at index `a` with `seq`
(the effect of an in-bounds contiguous write into the buffer). -/
def spliceWrite (bytes : List Nat) (a : Nat) (seq : List Nat) : List Nat :=
  bytes.take a ++ seq ++ bytes.drop (a + seq.length)

theorem spliceWrite_nil (bytes : List Nat) (a : Nat) :
    spliceWrite bytes a [] = bytes := by
  simp [spliceWrite]

theorem spliceWrite_length (bytes seq : List Nat) (a : Nat)
    (h : a + seq.length ≤ bytes.length) :
    (spliceWrite bytes a seq).length = bytes.length := by
  simp only [spliceWrite, List.length_append, List.length_take, List.length_drop]
  omega

theorem spliceWrite_getElem? (bytes seq : List Nat) (a : Nat)
    (h : a + seq.length ≤ bytes.length) (i : Nat) :
    (spliceWrite bytes a seq)[i]? =
      if a ≤ i ∧ i < a + seq.length then seq[i - a]? else bytes[i]? := by
  have hta : (bytes.take a).length = a := by
    rw [List.length_take]; omega
  have hts : (bytes.take a ++ seq).length = a + seq.length := by
    rw [List.length_append, hta]
  by_cases hlo : i < a
  · rw [if_neg (by omega)]
    unfold spliceWrite
    rw [List.getElem?_append_left (by omega),
      List.getElem?_append_left (by omega), List.getElem?_take_of_lt hlo]
  · by_cases hmid : i < a + seq.length
    · rw [if_pos ⟨by omega, hmid⟩]
      unfold spliceWrite
      rw [List.getElem?_append_left (by omega),
        List.getElem?_append_right (by omega), hta]
    · rw [if_neg (by omega)]
      unfold spliceWrite
      rw [List.getElem?_append_right (by omega), hts, List.getElem?_drop]
      congr 1
      omega

/-- `bytes[i] = v`; Rust indexing aborts out of bounds. -/
def setByte (bytes : List Nat) (i v : Nat) : Option (List Nat) :=
  if i < bytes.length then some (bytes.set i v) else none

/-- `bytes[start..stop].fill(0x90)`; Rust slicing aborts on an invalid
range. -/
def fillNops (bytes : List Nat) (start stop : Nat) : Option (List Nat) :=
  if start ≤ stop ∧ stop ≤ bytes.length then
    some (bytes.take start ++ List.replicate (stop - start) 0x90 ++ bytes.drop stop)
  else none

theorem setByte_spliceWrite (bytes seq : List Nat) (a v : Nat)
    (h : a + seq.length < bytes.length) :
    setByte (spliceWrite bytes a seq) (a + seq.length) v =
      some (spliceWrite bytes a (seq ++ [v])) := by
  have hlen : (spliceWrite bytes a seq).length = bytes.length :=
    spliceWrite_length bytes seq a (by omega)
  unfold setByte
  rw [if_pos (by omega)]
  congr 1
  apply List.ext_getElem?
  intro i
  by_cases hieq : i = a + seq.length
  · subst hieq
    rw [List.getElem?_set_self (by omega)]
    rw [spliceWrite_getElem? bytes (seq ++ [v]) a (by simp; omega)]
    rw [if_pos (by refine ⟨by omega, ?_⟩; simp)]
    rw [List.getElem?_append_right (by omega)]
    simp
  · rw [List.getElem?_set_ne (fun hh => hieq hh.symm)]
    rw [spliceWrite_getElem? bytes seq a (by omega),
      spliceWrite_getElem? bytes (seq ++ [v]) a (by simp; omega)]
    by_cases hin : a ≤ i ∧ i < a + seq.length
    · rw [if_pos hin, if_pos (by simp; omega)]
      rw [List.getElem?_append_left (by omega)]
    · rw [if_neg hin, if_neg (by simp; omega)]

theorem fillNops_spliceWrite (bytes seq : List Nat) (a n : Nat)
    (h : a + n ≤ bytes.length) (hsl : seq.length ≤ n) :
    fillNops (spliceWrite bytes a seq) (a + seq.length) (a + n) =
      some (spliceWrite bytes a (seq ++ List.replicate (n - seq.length) 0x90)) := by
  have hlen : (spliceWrite bytes a seq).length = bytes.length :=
    spliceWrite_length bytes seq a (by omega)
  unfold fillNops
  rw [if_pos (by constructor <;> omega)]
  congr 1
  apply List.ext_getElem?
  intro i
  have hta : ((spliceWrite bytes a seq).take (a + seq.length)).length
      = a + seq.length := by
    rw [List.length_take]; omega
  have htr : ((spliceWrite bytes a seq).take (a + seq.length)
      ++ List.replicate (a + n - (a + seq.length)) 0x90).length = a + n := by
    rw [List.length_append, hta, List.length_replicate]; omega
  have hrhs := spliceWrite_getElem? bytes
    (seq ++ List.replicate (n - seq.length) 0x90) a (by simp; omega) i
  by_cases h1 : i < a + seq.length
  · rw [List.getElem?_append_left (by omega),
      List.getElem?_append_left (by omega), List.getElem?_take_of_lt h1]
    rw [spliceWrite_getElem? bytes seq a (by omega), hrhs]
    by_cases hin : a ≤ i ∧ i < a + seq.length
    · rw [if_pos hin, if_pos (by simp; omega)]
      rw [List.getElem?_append_left (by omega)]
    · rw [if_neg hin, if_neg (by simp; omega)]
  · by_cases h2 : i < a + n
    · rw [List.getElem?_append_left (by omega),
        List.getElem?_append_right (by omega), hta,
        List.getElem?_replicate_of_lt (by omega)]
      rw [hrhs, if_pos (by simp; omega)]
      rw [List.getElem?_append_right (by omega),
        List.getElem?_replicate_of_lt (by omega)]
    · rw [List.getElem?_append_right (by omega), htr, List.getElem?_drop]
      rw [hrhs, if_neg (by simp; omega)]
      rw [spliceWrite_getElem? bytes seq a (by omega),
        if_neg (by omega)]
      congr 1
      omega

/-- The five bytes `apply_returnsites` writes: `ret; int3 ×4`. -/
def returnSitePatchBytes : List Nat := [0xc3, 0xcc, 0xcc, 0xcc, 0xcc]

/-- The 5-byte overwrite
`self.bytes[patch_addr..patch_addr+5].copy_from_slice(&[c3 cc cc cc cc])`;
Rust slicing aborts when the range leaves the buffer — nothing checks it
against the file size. -/
def writeRet5 (bytes : List Nat) (patchAddr : Nat) : Option (List Nat) :=
  if patchAddr + 5 ≤ bytes.length then
    some (spliceWrite bytes patchAddr returnSitePatchBytes)
  else none

/-- The per-entry body of `apply_returnsites`: the entry has resolved to
absolute VA `v`; `.text` has `sh_addr = textAddr`, `sh_offset = textOff`
and `sh_size = textSize`.  The offset is the unchecked `usize`
subtraction `v - textAddr`; the entry is skipped (buffer unchanged)
exactly when that offset exceeds `textSize`. -/
def applyOneReturnSite (bytes : List Nat) (textAddr textOff textSize v : Nat) :
    Option (List Nat) :=
  let retTextOffset := wrapSub64 v textAddr
  if textSize < retTextOffset then some bytes
  else writeRet5 bytes (textOff + retTextOffset)

/-- The per-site body of `patch_retpolines` after the decode: the site's
instruction was decoded as `CALL rel32` (`isCall = true`) or `JMP rel32`
(`isCall = false`) of byte length `len`, and the target register index
`reg = (target - thunk_array_addr) / 32` was derived.  `none` models the
`panic!` for `reg == 4` and the aborts on out-of-bounds writes.  The
`u8` ModR/M arithmetic wraps modulo 256. -/
def patchRetpolineSite (bytes : List Nat) (patchAddr : Nat) (isCall : Bool)
    (reg len : Nat) : Option (List Nat) :=
  if reg = 4 then none
  else
    let modrm : Nat := if isCall then 0x10 else 0x20
    let step1 : Option (List Nat × Nat × Nat) :=
      if 8 ≤ reg then
        (setByte bytes patchAddr 0x41).map (fun b => (b, 1, reg - 8))
      else some (bytes, 0, reg)
    step1.bind (fun st =>
      (setByte st.1 (patchAddr + st.2.1) 0xff).bind (fun b2 =>
        (setByte b2 (patchAddr + st.2.1 + 1) (((modrm ||| 0xc0) + st.2.2) % 256)).bind (fun b3 =>
          fillNops b3 (patchAddr + st.2.1 + 2) (patchAddr + len))))

/-- The per-entry offset/guard wrapper of `patch_retpolines`: identical
`usize` subtraction and `> sh_size` skip guard as `apply_returnsites`,
then the site patch at `textOff + offset`. -/
def applyOneRetpolineSite (bytes : List Nat) (textAddr textOff textSize v : Nat)
    (isCall : Bool) (reg len : Nat) : Option (List Nat) :=
  let retpTextOffset := wrapSub64 v textAddr
  if textSize < retpTextOffset then some bytes
  else patchRetpolineSite bytes (textOff + retpTextOffset) isCall reg len

/-- The register-index derivation
`let mut reg = (target - thunk_array_addr) / 32;` (wrapping `u64`
subtraction, `RETPOLINE_THUNK_SIZE == 32`). -/
def targetRegIndex (target thunkArrayAddr : Nat) : Nat :=
  wrapSub64 target thunkArrayAddr / 32

/-- C3: at a retpoline site decoded as CALL/JMP rel32 with register
index `reg = (target - thunk_array_addr) / 32`, `reg ≠ 4`, the patched
bytes are the optional REX.B prefix `0x41` (written, with `reg` reduced
by 8, exactly when `reg ≥ 8`), then opcode `0xFF`, then the ModR/M byte
(`0x10` for CALL, `0x20` for JMP) OR `0xC0` plus the reduced register
number, with the remaining bytes of the original instruction filled
with `0x90`; `reg = 4` is a fatal error.  The final conjunct checks the
index derivation: a target at offset `32·reg + o` (`o < 32`) into the
thunk array yields `reg`. -/
theorem patchRetpolineSite_spec (bytes : List Nat) (a : Nat) (isCall : Bool)
    (reg len : Nat) (hlen : 5 ≤ len) (hbound : a + len ≤ bytes.length) :
    patchRetpolineSite bytes a isCall 4 len = none ∧
    (reg < 16 → reg ≠ 4 →
      patchRetpolineSite bytes a isCall reg len =
        some (spliceWrite bytes a
          ((if 8 ≤ reg then [0x41] else []) ++
            [0xff, ((if isCall then 0x10 else 0x20) ||| 0xc0) + reg % 8] ++
            List.replicate (len - (if 8 ≤ reg then 3 else 2)) 0x90))) ∧
    (∀ thunkBase o, thunkBase + 32 * reg + o < W64 → o < 32 →
      targetRegIndex (thunkBase + 32 * reg + o) thunkBase = reg) := by
  refine ⟨?_, ?_, ?_⟩
  case refine_3 =>
    intro thunkBase o hW ho
    unfold targetRegIndex
    rw [wrapSub64_of_le _ _ (by omega) hW]
    omega
  · simp [patchRetpolineSite]
  · intro hreg hne4
    by_cases h8 : 8 ≤ reg
    · have hmodrw : (((if isCall then (0x10 : Nat) else 0x20) ||| 0xc0) + (reg - 8)) % 256
          = ((if isCall then (0x10 : Nat) else 0x20) ||| 0xc0) + reg % 8 := by
        have hlt : ((if isCall then (0x10 : Nat) else 0x20) ||| 0xc0) + (reg - 8) < 256 := by
          cases isCall <;> simp <;> omega
        rw [Nat.mod_eq_of_lt hlt]
        congr 1
        omega
      have s1 : setByte bytes a 0x41 = some (spliceWrite bytes a [0x41]) := by
        have base := setByte_spliceWrite bytes [] a 0x41 (by simp; omega)
        simpa [spliceWrite_nil] using base
      have s2 : setByte (spliceWrite bytes a [0x41]) (a + 1) 0xff
          = some (spliceWrite bytes a [0x41, 0xff]) := by
        have base := setByte_spliceWrite bytes [0x41] a 0xff (by simp; omega)
        simpa using base
      have s3 : setByte (spliceWrite bytes a [0x41, 0xff]) (a + 2)
            (((if isCall then (0x10 : Nat) else 0x20) ||| 0xc0) + reg % 8)
          = some (spliceWrite bytes a
              [0x41, 0xff, ((if isCall then (0x10 : Nat) else 0x20) ||| 0xc0) + reg % 8]) := by
        have base := setByte_spliceWrite bytes [0x41, 0xff] a
          (((if isCall then (0x10 : Nat) else 0x20) ||| 0xc0) + reg % 8) (by simp; omega)
        simpa using base
      have s4 : fillNops (spliceWrite bytes a
            [0x41, 0xff, ((if isCall then (0x10 : Nat) else 0x20) ||| 0xc0) + reg % 8])
            (a + 3) (a + len)
          = some (spliceWrite bytes a
              ([0x41, 0xff, ((if isCall then (0x10 : Nat) else 0x20) ||| 0xc0) + reg % 8]
                ++ List.replicate (len - 3) 0x90)) := by
        have base := fillNops_spliceWrite bytes
          [0x41, 0xff, ((if isCall then (0x10 : Nat) else 0x20) ||| 0xc0) + reg % 8]
          a len (by omega) (by simp; omega)
        simpa using base
      simp only [patchRetpolineSite, hne4, h8, ite_true, ite_false, if_true, if_false,
        s1, Option.map_some', Option.some_bind, hmodrw,
        show a + 1 + 1 = a + 2 from by omega,
        show a + 1 + 2 = a + 3 from by omega,
        s2, s3, s4, List.cons_append, List.nil_append]
    · have hmodrw : (((if isCall then (0x10 : Nat) else 0x20) ||| 0xc0) + reg) % 256
          = ((if isCall then (0x10 : Nat) else 0x20) ||| 0xc0) + reg % 8 := by
        have hlt : ((if isCall then (0x10 : Nat) else 0x20) ||| 0xc0) + reg < 256 := by
          cases isCall <;> simp <;> omega
        rw [Nat.mod_eq_of_lt hlt]
        congr 1
        omega
      have s2 : setByte bytes a 0xff = some (spliceWrite bytes a [0xff]) := by
        have base := setByte_spliceWrite bytes [] a 0xff (by simp; omega)
        simpa [spliceWrite_nil] using base
      have s3 : setByte (spliceWrite bytes a [0xff]) (a + 1)
            (((if isCall then (0x10 : Nat) else 0x20) ||| 0xc0) + reg % 8)
          = some (spliceWrite bytes a
              [0xff, ((if isCall then (0x10 : Nat) else 0x20) ||| 0xc0) + reg % 8]) := by
        have base := setByte_spliceWrite bytes [0xff] a
          (((if isCall then (0x10 : Nat) else 0x20) ||| 0xc0) + reg % 8) (by simp; omega)
        simpa using base
      have s4 : fillNops (spliceWrite bytes a
            [0xff, ((if isCall then (0x10 : Nat) else 0x20) ||| 0xc0) + reg % 8])
            (a + 2) (a + len)
          = some (spliceWrite bytes a
              ([0xff, ((if isCall then (0x10 : Nat) else 0x20) ||| 0xc0) + reg % 8]
                ++ List.replicate (len - 2) 0x90)) := by
        have base := fillNops_spliceWrite bytes
          [0xff, ((if isCall then (0x10 : Nat) else 0x20) ||| 0xc0) + reg % 8]
          a len (by omega) (by simp; omega)
        simpa using base
      simp only [patchRetpolineSite, hne4, h8, ite_true, ite_false, if_true, if_false,
        Nat.add_zero, Option.some_bind, hmodrw,
        s2, s3, s4, List.cons_append, List.nil_append]

/-- C3 witness: a JMP-rel32 retpoline site to register index 3 (rbx) in
an 8-byte buffer at offset 1, instruction length 5: the patch is
`ff e3 90 90 90`; and a target at `thunk_array + 96 + 5` derives
register index 3. -/
theorem patchRetpolineSite_spec_witness :
    patchRetpolineSite [0, 0, 0, 0, 0, 0, 0, 0] 1 false 4 5 = none ∧
    ((3 : Nat) < 16 → (3 : Nat) ≠ 4 →
      patchRetpolineSite [0, 0, 0, 0, 0, 0, 0, 0] 1 false 3 5 =
        some (spliceWrite [0, 0, 0, 0, 0, 0, 0, 0] 1
          ((if 8 ≤ (3 : Nat) then [0x41] else []) ++
            [0xff, ((if false then (0x10 : Nat) else 0x20) ||| 0xc0) + 3 % 8] ++
            List.replicate (5 - (if 8 ≤ (3 : Nat) then 3 else 2)) 0x90))) ∧
    targetRegIndex (1000 + 32 * 3 + 5) 1000 = 3 := by
  have h := patchRetpolineSite_spec [0, 0, 0, 0, 0, 0, 0, 0] 1 false 3 5
    (by decide) (by decide)
  exact ⟨h.1, h.2.1, h.2.2 1000 5 (by decide) (by decide)⟩

/-- C4: a `.return_sites` entry resolving to absolute VA `v` leaves the
image unchanged when the offset `v - sh_addr(.text)` exceeds
`sh_size(.text)`, and otherwise overwrites exactly the 5 bytes at the
corresponding file offset with `c3 cc cc cc cc`, leaving every other
byte of the image unchanged. -/
theorem applyOneReturnSite_spec (bytes : List Nat)
    (textAddr textOff textSize v : Nat)
    (hv : textAddr ≤ v) (hv64 : v < W64) :
    (textSize < v - textAddr →
      applyOneReturnSite bytes textAddr textOff textSize v = some bytes) ∧
    (v - textAddr ≤ textSize →
      textOff + (v - textAddr) + 5 ≤ bytes.length →
      ∃ out, applyOneReturnSite bytes textAddr textOff textSize v = some out ∧
        out.length = bytes.length ∧
        (∀ j, j < 5 → out[textOff + (v - textAddr) + j]? = returnSitePatchBytes[j]?) ∧
        (∀ i, i < textOff + (v - textAddr) ∨ textOff + (v - textAddr) + 5 ≤ i →
          out[i]? = bytes[i]?)) := by
  have hw : wrapSub64 v textAddr = v - textAddr := wrapSub64_of_le v textAddr hv hv64
  constructor
  · intro hskip
    unfold applyOneReturnSite
    rw [hw, if_pos hskip]
  · intro hin hbound
    refine ⟨spliceWrite bytes (textOff + (v - textAddr)) returnSitePatchBytes,
      ?_, ?_, ?_, ?_⟩
    · unfold applyOneReturnSite
      rw [hw, if_neg (by omega)]
      unfold writeRet5
      rw [if_pos (by simpa [returnSitePatchBytes] using hbound)]
    · exact spliceWrite_length bytes returnSitePatchBytes _
        (by simpa [returnSitePatchBytes] using hbound)
    · intro j hj
      rw [spliceWrite_getElem? bytes returnSitePatchBytes _
        (by simpa [returnSitePatchBytes] using hbound)]
      rw [if_pos (by simp [returnSitePatchBytes]; omega)]
      congr 1
      omega
    · intro i hi
      rw [spliceWrite_getElem? bytes returnSitePatchBytes _
        (by simpa [returnSitePatchBytes] using hbound)]
      rw [if_neg (by simp [returnSitePatchBytes]; omega)]

/-- C4 witness: `.text` at VA 100 / file offset 0 / size 3, buffer of 7
bytes, a site resolving to VA 102: both conjuncts at a concrete
input (the second rewrites file bytes 2..7 with `c3 cc cc cc cc`). -/
theorem applyOneReturnSite_spec_witness :
    ((3 : Nat) < 102 - 100 →
      applyOneReturnSite [1, 1, 1, 1, 1, 1, 1] 100 0 3 102 = some [1, 1, 1, 1, 1, 1, 1]) ∧
    ((102 : Nat) - 100 ≤ 3 →
      0 + (102 - 100) + 5 ≤ [1, 1, 1, 1, 1, 1, 1].length →
      ∃ out, applyOneReturnSite [1, 1, 1, 1, 1, 1, 1] 100 0 3 102 = some out ∧
        out.length = [1, 1, 1, 1, 1, 1, 1].length ∧
        (∀ j, j < 5 → out[0 + (102 - 100) + j]? = returnSitePatchBytes[j]?) ∧
        (∀ i, i < 0 + (102 - 100) ∨ 0 + (102 - 100) + 5 ≤ i →
          out[i]? = [1, 1, 1, 1, 1, 1, 1][i]?)) :=
  applyOneReturnSite_spec [1, 1, 1, 1, 1, 1, 1] 100 0 3 102
    (by decide) (by decide)

/-! ## binary.rs: helper-section entry decoding (shared by both passes)

Both `apply_returnsites` and `patch_retpolines` decode their helper
section (`.return_sites` / `.retpoline_sites`) with the identical
expression
`i32::from_ne_bytes(chunk) as i64 as usize + (header.sh_addr as usize + (idx * 4))`
over `data.chunks(4).enumerate()`. -/

/-- `i32::from_ne_bytes` of a 4-byte chunk — native endian is little
endian on x86 — as a signed value. -/
def i32FromLEBytes (b0 b1 b2 b3 : Nat) : Int :=
  let u : Nat := b0 + 256 * b1 + 65536 * b2 + 16777216 * b3
  if u < 2147483648 then (u : Int) else (u : Int) - 4294967296

/-- `as i64 as usize`: sign-extend to 64 bits, then reinterpret the
two's-complement pattern as an unsigned 64-bit value. -/
def i64AsUsize (x : Int) : Nat := (x % (18446744073709551616 : Int)).toNat

/-- Entry resolution as written in both passes (`usize` addition wraps
in release mode). -/
def resolveSiteEntry (shAddr idx b0 b1 b2 b3 : Nat) : Nat :=
  (i64AsUsize (i32FromLEBytes b0 b1 b2 b3) + (shAddr + idx * 4)) % W64

/-- `data.chunks(4)` combined with the `try_into().expect(..)` abort on
a trailing partial chunk. -/
def chunks4 : List Nat → Option (List (Nat × Nat × Nat × Nat))
  | [] => some []
  | b0 :: b1 :: b2 :: b3 :: rest =>
    (chunks4 rest).map (fun cs => (b0, b1, b2, b3) :: cs)
  | _ => none

/-- The helper-section decode of both patch passes:
`chunks(4).enumerate().map(..)`. -/
def resolveSites (shAddr : Nat) (data : List Nat) : Option (List Nat) :=
  (chunks4 data).map (fun cs =>
    cs.enum.map (fun p =>
      resolveSiteEntry shAddr p.1 p.2.1 p.2.2.1 p.2.2.2.1 p.2.2.2.2))

/-- Modelled from the spec's words: entry `i` resolves to the absolute
64-bit VA `section_vaddr + i*4 + sign_extend(entry_i)`. -/
def specResolveEntry (shAddr idx b0 b1 b2 b3 : Nat) : Nat :=
  (((shAddr : Int) + idx * 4 + i32FromLEBytes b0 b1 b2 b3)
    % (18446744073709551616 : Int)).toNat

theorem resolveSiteEntry_eq_spec (shAddr idx b0 b1 b2 b3 : Nat) :
    resolveSiteEntry shAddr idx b0 b1 b2 b3
      = specResolveEntry shAddr idx b0 b1 b2 b3 := by
  unfold resolveSiteEntry specResolveEntry i64AsUsize W64
  have h0 : (0 : Int) ≤ i32FromLEBytes b0 b1 b2 b3 % 18446744073709551616 :=
    Int.emod_nonneg _ (by norm_num)
  have h1 : i32FromLEBytes b0 b1 b2 b3 % 18446744073709551616
      < 18446744073709551616 :=
    Int.emod_lt_of_pos _ (by norm_num)
  omega

theorem chunks4_getElem? (idx : Nat) : ∀ (data : List Nat)
    (cs : List (Nat × Nat × Nat × Nat)), chunks4 data = some cs →
    ∀ b0 b1 b2 b3, data[4 * idx]? = some b0 → data[4 * idx + 1]? = some b1 →
    data[4 * idx + 2]? = some b2 → data[4 * idx + 3]? = some b3 →
    cs[idx]? = some (b0, b1, b2, b3) := by
  induction idx with
  | zero =>
    intro data cs h b0 b1 b2 b3 hb0 hb1 hb2 hb3
    match data with
    | [] => simp at hb0
    | [c0] => simp at hb1
    | [c0, c1] => simp at hb2
    | [c0, c1, c2] => simp at hb3
    | c0 :: c1 :: c2 :: c3 :: rest =>
      simp only [chunks4] at h
      cases hr : chunks4 rest with
      | none => rw [hr] at h; simp at h
      | some cs' =>
        rw [hr] at h
        simp only [Option.map_some', Option.some.injEq] at h
        subst h
        simp only [Nat.mul_zero, List.getElem?_cons_zero, Option.some.injEq,
          Nat.zero_add, List.getElem?_cons_succ] at hb0 hb1 hb2 hb3
        simp [← hb0, ← hb1, ← hb2, ← hb3]
  | succ idx ih =>
    intro data cs h b0 b1 b2 b3 hb0 hb1 hb2 hb3
    match data with
    | [] => simp at hb0
    | [c0] => simp at hb1
    | [c0, c1] => simp at hb2
    | [c0, c1, c2] => simp at hb3
    | c0 :: c1 :: c2 :: c3 :: rest =>
      simp only [chunks4] at h
      cases hr : chunks4 rest with
      | none => rw [hr] at h; simp at h
      | some cs' =>
        rw [hr] at h
        simp only [Option.map_some', Option.some.injEq] at h
        subst h
        have h4 : 4 * (idx + 1) = 4 * idx + 1 + 1 + 1 + 1 := by ring
        rw [h4] at hb0 hb1 hb2 hb3
        simp only [List.getElem?_cons_succ] at hb0 hb1 hb2 hb3
        simpa using ih rest cs' hr b0 b1 b2 b3 hb0 hb1 hb2 hb3

/-- C5: both patch passes decode helper-section entry `i` as a 32-bit
little-endian signed integer and resolve it to the absolute VA
`section_vaddr + i*4 + sign_extend(entry_i)` (64-bit), for every entry
of the section: the code's resolution expression agrees with the spec's
formula, and the `i`-th resolved site is the formula applied to bytes
`4i..4i+4` of the section. -/
theorem resolveSites_spec (shAddr idx b0 b1 b2 b3 : Nat) (data : List Nat)
    (sites : List Nat) (hsites : resolveSites shAddr data = some sites)
    (hb0 : data[4 * idx]? = some b0) (hb1 : data[4 * idx + 1]? = some b1)
    (hb2 : data[4 * idx + 2]? = some b2) (hb3 : data[4 * idx + 3]? = some b3) :
    resolveSiteEntry shAddr idx b0 b1 b2 b3
        = specResolveEntry shAddr idx b0 b1 b2 b3 ∧
    sites[idx]? = some (specResolveEntry shAddr idx b0 b1 b2 b3) := by
  refine ⟨resolveSiteEntry_eq_spec shAddr idx b0 b1 b2 b3, ?_⟩
  unfold resolveSites at hsites
  cases hc : chunks4 data with
  | none => rw [hc] at hsites; simp at hsites
  | some cs =>
    rw [hc] at hsites
    simp only [Option.map_some', Option.some.injEq] at hsites
    subst hsites
    have hchunk := chunks4_getElem? idx data cs hc b0 b1 b2 b3 hb0 hb1 hb2 hb3
    rw [List.getElem?_map, List.getElem?_enum, hchunk]
    simp [resolveSiteEntry_eq_spec]

/-- C5 witness: a one-entry section with bytes `fc ff ff ff` (entry
value −4) at `sh_addr = 100`: the site resolves to `100 + 0*4 − 4 =
96`, by both the code's expression and the spec's formula. -/
theorem resolveSites_spec_witness :
    (resolveSiteEntry 100 0 0xfc 0xff 0xff 0xff
        = specResolveEntry 100 0 0xfc 0xff 0xff 0xff ∧
      [96][0]? = some (specResolveEntry 100 0 0xfc 0xff 0xff 0xff)) ∧
    specResolveEntry 100 0 0xfc 0xff 0xff 0xff = 96 :=
  ⟨resolveSites_spec 100 0 0xfc 0xff 0xff 0xff [0xfc, 0xff, 0xff, 0xff] [96]
      (by decide) (by decide) (by decide) (by decide) (by decide),
    by decide⟩

/-- C10: in both patch passes the within-`.text` offset is the
unchecked `usize` subtraction `site_vaddr - sh_addr(.text)`: for a site
VA strictly below the `.text` base it underflows (wrapping to a huge
value rather than the true difference); the skip branch tests only
`offset > sh_size`, not `site_vaddr < sh_addr` — with a large `sh_size`
such a below-base site is not skipped in either pass; and the 5-byte
(or instruction-length) write is not bounds-checked against the file
size (it aborts instead of skipping when it would run past the end). -/
theorem patch_offset_underflow (v textAddr textOff p : Nat) (bytes : List Nat)
    (h1 : v < textAddr) (h2 : textAddr < W64)
    (h3 : bytes.length + textAddr ≤ W64) (h4 : bytes.length < p + 5) :
    wrapSub64 v textAddr = v + (W64 - textAddr) ∧
    ((wrapSub64 v textAddr : Nat) : Int) ≠ (v : Int) - (textAddr : Int) ∧
    applyOneReturnSite bytes textAddr textOff (W64 - 1) v ≠ some bytes ∧
    applyOneRetpolineSite bytes textAddr textOff (W64 - 1) v false 0 5 ≠ some bytes ∧
    writeRet5 bytes p = none := by
  have hW : W64 = 18446744073709551616 := rfl
  have hoff : wrapSub64 v textAddr = v + (W64 - textAddr) := by
    simp only [wrapSub64, hW] at h2 ⊢
    omega
  have hnoskip : ¬ (W64 - 1 < v + (W64 - textAddr)) := by
    simp only [hW] at h2 ⊢
    omega
  have hge : ¬ (textOff + (v + (W64 - textAddr)) < bytes.length) := by
    simp only [hW] at h2 h3 ⊢
    omega
  refine ⟨hoff, ?_, ?_, ?_, ?_⟩
  · rw [hoff]
    simp only [hW] at h2 ⊢
    omega
  · simp only [applyOneReturnSite, writeRet5, hoff]
    rw [if_neg hnoskip, if_neg (by omega)]
    simp
  · simp only [applyOneRetpolineSite, hoff]
    rw [if_neg hnoskip]
    simp [patchRetpolineSite, setByte, Option.some_bind, hge]
  · unfold writeRet5
    rw [if_neg (by omega)]

/-- C10 witness: site VA 0, `.text` base 1, empty file, write offset 0:
the wrapped offset is `2^64 - 1`, differs from the true difference `-1`,
the below-base site is not skipped by either pass when `sh_size` is
`2^64 - 1`, and an unbounded 5-byte write aborts. -/
theorem patch_offset_underflow_witness :
    wrapSub64 0 1 = 0 + (W64 - 1) ∧
    ((wrapSub64 0 1 : Nat) : Int) ≠ (0 : Int) - (1 : Int) ∧
    applyOneReturnSite [] 1 0 (W64 - 1) 0 ≠ some [] ∧
    applyOneRetpolineSite [] 1 0 (W64 - 1) 0 false 0 5 ≠ some [] ∧
    writeRet5 [] 0 = none :=
  patch_offset_underflow 0 1 0 0 []
    (by decide) (by decide) (by decide) (by decide)

/-! ## ropr.rs: `--range` argument processing -/

/-- `str::split_once('-')`: split at the first dash, `none` when there
is no dash. -/
def splitOnceDash : List Char → Option (List Char × List Char)
  | [] => none
  | c :: rest =>
    if c = '-' then some ([], rest)
    else (splitOnceDash rest).map (fun p => (c :: p.1, p.2))

/-- The `starts_with("0x")` test followed by `&s[2..]`. -/
def stripHexMark : List Char → List Char
  | '0' :: 'x' :: rest => rest
  | s => s

/-- One digit for `usize::from_str_radix(.., 16)`. -/
def hexDigitVal (c : Char) : Option Nat :=
  if '0' ≤ c ∧ c ≤ '9' then some (c.toNat - 48)
  else if 'a' ≤ c ∧ c ≤ 'f' then some (c.toNat - 97 + 10)
  else if 'A' ≤ c ∧ c ≤ 'F' then some (c.toNat - 65 + 10)
  else none

/-- `usize::from_str_radix(s, 16)`: an optional leading `+`, then at
least one hex digit, failing on an empty digit string, any invalid
digit, or overflow past `usize::MAX`. -/
def fromStrRadix16 (s : List Char) : Option Nat :=
  let digits :=
    match s with
    | '+' :: rest => rest
    | _ => s
  if digits.isEmpty then none
  else
    digits.foldl
      (fun acc c =>
        match acc, hexDigitVal c with
        | some a, some d => if a * 16 + d < W64 then some (a * 16 + d) else none
        | _, _ => none)
      (some 0)

/-- One `--range` argument as processed by `main`: `split_once('-')`,
optional `0x` strip on either endpoint, hex parse of both; `none` is
silently discarded by the surrounding `filter_map`s. -/
def parseOneRange (s : List Char) : Option (Nat × Nat) :=
  match splitOnceDash s with
  | none => none
  | some (f, t) =>
    match fromStrRadix16 (stripHexMark f) with
    | none => none
    | some a =>
      match fromStrRadix16 (stripHexMark t) with
      | none => none
      | some b => some (a, b)

/-- The `ranges` vector built by `main`. -/
def parseRanges (args : List (List Char)) : List (Nat × Nat) :=
  args.filterMap parseOneRange

/-- The address filter applied to each `(gadget, address)` pair: accept
when the range set is empty or some interval contains the address. -/
def rangeAccepts (ranges : List (Nat × Nat)) (address : Nat) : Bool :=
  if ranges.isEmpty then true
  else ranges.any (fun r => decide (r.1 ≤ address ∧ address ≤ r.2))

/-- C9: a `--range` string without a `-` separator or whose endpoints do
not parse as hexadecimal (after stripping an optional `0x`) is silently
dropped from the range-filter set rather than reported as an argument
error; when every supplied range is malformed the filter set is empty
and every gadget address is accepted. -/
theorem malformed_ranges_dropped (s : List Char) (args : List (List Char))
    (address : Nat) (h1 : parseOneRange s = none)
    (h2 : ∀ t ∈ args, parseOneRange t = none) :
    parseRanges (s :: args) = parseRanges args ∧
    parseRanges args = [] ∧
    rangeAccepts (parseRanges args) address = true := by
  have hnil : parseRanges args = [] := by
    unfold parseRanges
    exact List.filterMap_eq_nil_iff.mpr h2
  refine ⟨?_, hnil, ?_⟩
  · unfold parseRanges
    exact List.filterMap_cons_none h1
  · rw [hnil]
    simp [rangeAccepts]

/-- C9 witness: `--range nodash` (no separator) and `--range 0xzz-0x10`
(bad hex) are both dropped, the filter set is empty, and address 42 is
accepted. -/
theorem malformed_ranges_dropped_witness :
    parseRanges [['n', 'o', 'd', 'a', 's', 'h'],
        ['0', 'x', 'z', 'z', '-', '0', 'x', '1', '0']]
      = parseRanges [['0', 'x', 'z', 'z', '-', '0', 'x', '1', '0']] ∧
    parseRanges [['0', 'x', 'z', 'z', '-', '0', 'x', '1', '0']] = [] ∧
    rangeAccepts (parseRanges [['0', 'x', 'z', 'z', '-', '0', 'x', '1', '0']]) 42
      = true :=
  malformed_ranges_dropped ['n', 'o', 'd', 'a', 's', 'h']
    [['0', 'x', 'z', 'z', '-', '0', 'x', '1', '0']] 42
    (by decide) (by decide)

/-! ## ropr.rs: gadget line rendering (`write_gadgets`) -/

/-- Lowercase hexadecimal digit character. -/
def hexDigitChar (n : Nat) : Char :=
  if n < 10 then Char.ofNat (48 + n) else Char.ofNat (87 + n)

/-- Hex digits of `n`, most significant first; fuel-indexed, any
`fuel > n` computes the value. -/
def hexDigitsGo : Nat → Nat → List Char
  | 0, _ => []
  | fuel + 1, n =>
    if n < 16 then [hexDigitChar n]
    else hexDigitsGo fuel (n / 16) ++ [hexDigitChar (n % 16)]

/-- The digit string Rust's `LowerHex` produces for `n` (no prefix). -/
def natHexDigits (n : Nat) : List Char := hexDigitsGo (n + 1) n

/-- Rust `format!("{:#x}", n)`. -/
def fmtHex (n : Nat) : List Char := '0' :: 'x' :: natHexDigits n

/-- Rust `format!("{:#010x}", n)`: the `0x` prefix is written first,
then zero padding up to a total field width of 10 counting the
prefix, then the digits. -/
def fmtHexWidth10 (n : Nat) : List Char :=
  let digits := natHexDigits n
  if 2 + digits.length < 10 then
    '0' :: 'x' :: (List.replicate (10 - (2 + digits.length)) '0' ++ digits)
  else '0' :: 'x' :: digits

/-- One rendered gadget line: `format!("{:#010x}: ", address)` followed
by the (symbolized) gadget text. -/
def renderLine (address : Nat) (text : List Char) : List Char :=
  fmtHexWidth10 address ++ (':' :: ' ' :: text)

/-- Modelled from the claim's words: the address printed as a 0-padded
10-hex-digit number with a `0x` prefix. -/
def claimAddrTenDigits (n : Nat) : List Char :=
  '0' :: 'x' ::
    (List.replicate (10 - (natHexDigits n).length) '0' ++ natHexDigits n)

/-- C7 counterexample: at address 0x1234 the rendered line starts
`0x00001234: ` — a 10-character field counting the `0x` prefix, i.e.
8 digits — not the 12-character `0x0000001234: ` that a 0-padded
10-hex-digit number with a `0x` prefix would give. -/
theorem renderLine_counterexample :
    renderLine 4660 ['r', 'e', 't', ';']
        ≠ claimAddrTenDigits 4660 ++ (':' :: ' ' :: ['r', 'e', 't', ';']) ∧
    fmtHexWidth10 4660 = ['0', 'x', '0', '0', '0', '0', '1', '2', '3', '4'] ∧
    claimAddrTenDigits 4660
        = ['0', 'x', '0', '0', '0', '0', '0', '0', '1', '2', '3', '4'] := by
  decide

theorem hexDigitsGo_length_le : ∀ (fuel k n : Nat), n < fuel → n < 16 ^ k →
    1 ≤ k → (hexDigitsGo fuel n).length ≤ k := by
  intro fuel
  induction fuel with
  | zero => intro k n hn; omega
  | succ f ih =>
    intro k n hn hpow hk
    unfold hexDigitsGo
    by_cases h16 : n < 16
    · simp [h16, hk]
    · rw [if_neg h16, List.length_append]
      have hk2 : 2 ≤ k := by
        by_contra hcon
        have : k = 1 := by omega
        subst this
        simp at hpow
        omega
      have hsplit : (16 : Nat) ^ k = 16 * 16 ^ (k - 1) := by
        conv_lhs => rw [show k = 1 + (k - 1) from by omega]
        rw [pow_add, pow_one]
      rw [hsplit] at hpow
      have hrec : (hexDigitsGo f (n / 16)).length ≤ k - 1 := by
        apply ih (k - 1) (n / 16) (by omega) (by omega) (by omega)
      simp only [List.length_cons, List.length_nil]
      omega

/-- C7 amended: each surviving gadget renders as `ADDR: TEXT` where
ADDR is the absolute address in lowercase hex with a `0x` prefix,
zero-padded to a minimum total field width of 10 characters *including*
the prefix (so at most 8 padded digits; addresses with more than 8
digits print unpadded). -/
theorem renderLine_spec (address : Nat) (text : List Char) :
    renderLine address text = fmtHexWidth10 address ++ (':' :: ' ' :: text) ∧
    fmtHexWidth10 address
      = '0' :: 'x' ::
          (List.replicate (10 - (2 + (natHexDigits address).length)) '0'
            ++ natHexDigits address) ∧
    (fmtHexWidth10 address).length = max 10 (2 + (natHexDigits address).length) ∧
    (address < 4294967296 → (fmtHexWidth10 address).length = 10) := by
  have hform : fmtHexWidth10 address
      = '0' :: 'x' ::
          (List.replicate (10 - (2 + (natHexDigits address).length)) '0'
            ++ natHexDigits address) := by
    unfold fmtHexWidth10
    by_cases h : 2 + (natHexDigits address).length < 10
    · rw [if_pos h]
    · rw [if_neg h, show 10 - (2 + (natHexDigits address).length) = 0 from by omega]
      simp
  have hlen : (fmtHexWidth10 address).length
      = max 10 (2 + (natHexDigits address).length) := by
    rw [hform]
    simp only [List.length_cons, List.length_append, List.length_replicate]
    omega
  refine ⟨rfl, hform, hlen, fun hlt => ?_⟩
  have hd : (natHexDigits address).length ≤ 8 := by
    apply hexDigitsGo_length_le (address + 1) 8 address (by omega)
      (by norm_num; omega) (by norm_num)
  omega

/-- C7 amended witness: the line for address 0x1234 with text `ret;`. -/
theorem renderLine_spec_witness :
    renderLine 4660 ['r', 'e', 't', ';']
        = fmtHexWidth10 4660 ++ (':' :: ' ' :: ['r', 'e', 't', ';']) ∧
    (fmtHexWidth10 4660).length = 10 :=
  ⟨(renderLine_spec 4660 ['r', 'e', 't', ';']).1,
    (renderLine_spec 4660 ['r', 'e', 't', ';']).2.2.2 (by decide)⟩

/-! ## ropr.rs: thunk-address symbolization in `write_gadgets` -/

/-- `str::replace` on character lists: replace every occurrence of
`pat`, scanning left to right without overlap.  Fuel-indexed; any
`fuel ≥ s.length` computes the result for a nonempty pattern. -/
def replaceGo (pat rep : List Char) : Nat → List Char → List Char
  | _, [] => []
  | 0, s => s
  | fuel + 1, c :: rest =>
    if pat.isPrefixOf (c :: rest) then
      rep ++ replaceGo pat rep fuel (List.drop pat.length (c :: rest))
    else c :: replaceGo pat rep fuel rest

/-- `s.replace(pat, rep)`. -/
def strReplace (s pat rep : List Char) : List Char :=
  replaceGo pat rep s.length s

/-- The name `__x86_return_thunk`. -/
def retThunkName : List Char :=
  ['_', '_', 'x', '8', '6', '_', 'r', 'e', 't', 'u', 'r', 'n', '_',
    't', 'h', 'u', 'n', 'k']

/-- The pattern `format!("{ret_thunk:#x};")`. -/
def retPat (rt : Nat) : List Char := fmtHex rt ++ [';']

/-- The replacement `format!("{ret_thunk:#x} <__x86_return_thunk>;")`. -/
def retRep (rt : Nat) : List Char :=
  fmtHex rt ++ (' ' :: '<' :: (retThunkName ++ ['>', ';']))

/-- The per-gadget text rewriting of `write_gadgets`: first, when the
return-thunk VA is known, replace `0x<rt>;` by
`0x<rt> <__x86_return_thunk>;`; then, for each indirect thunk with a
known VA, replace every `0x<va>` by `0x<va> <name>`. -/
def symbolizeText (retThunk : Option Nat) (thunks : ThunkList)
    (text : List Char) : List Char :=
  let t1 :=
    match retThunk with
    | some rt => strReplace text (retPat rt) (retRep rt)
    | none => text
  thunks.foldl
    (fun acc p =>
      match p.2 with
      | some a => strReplace acc (fmtHex a) (fmtHex a ++ (' ' :: '<' :: (p.1 ++ ['>'])))
      | none => acc) t1

/-- `pat` occurs in `s` at position `i`. -/
def occursAtB (pat s : List Char) (i : Nat) : Bool :=
  pat.isPrefixOf (s.drop i)

/-- `pat` occurs somewhere in `s`. -/
def containsSeq (pat s : List Char) : Bool :=
  (List.range (s.length + 1)).any (fun i => occursAtB pat s i)

/-- The 16 registers of the indirect-thunk table, in the order of
`arch/x86/include/asm/GEN-for-each-reg.h` as listed in `main`. -/
def thunkRegNames : List (List Char) :=
  [['r', 'a', 'x'], ['r', 'c', 'x'], ['r', 'd', 'x'], ['r', 'b', 'x'],
   ['r', 's', 'p'], ['r', 'b', 'p'], ['r', 's', 'i'], ['r', 'd', 'i'],
   ['r', '8'], ['r', '9'], ['r', '1', '0'], ['r', '1', '1'],
   ['r', '1', '2'], ['r', '1', '3'], ['r', '1', '4'], ['r', '1', '5']]

/-- The thunk table of a binary in which none of the 16
`__x86_indirect_thunk_<reg>` symbols resolves. -/
def kernelThunksNone : ThunkList :=
  thunkRegNames.map (fun r =>
    (['_', '_', 'x', '8', '6', '_', 'i', 'n', 'd', 'i', 'r', 'e', 'c', 't',
      '_', 't', 'h', 'u', 'n', 'k', '_'] ++ r, none))

/-- `mov rbx, [rax+0x12]; ret;` — gadget text containing the
return-thunk address `0x12` in a memory displacement, where it is not
followed by `;`. -/
def cexText : List Char :=
  ['m', 'o', 'v', ' ', 'r', 'b', 'x', ',', ' ', '[', 'r', 'a', 'x', '+',
   '0', 'x', '1', '2', ']', ';', ' ', 'r', 'e', 't', ';']

/-- C6 counterexample: with `ret_thunk = 0x12` known and no indirect
thunk VA known, the text `mov rbx, [rax+0x12]; ret;` is printed
unchanged: the occurrence of `0x12` inside the memory operand is *not*
symbolized (the code only replaces `0x12;`, with the trailing
semicolon), so the output does not contain
`0x12 <__x86_return_thunk>` although the claim requires every
occurrence of the thunk VA's hex string to be replaced. -/
theorem symbolize_counterexample :
    symbolizeText (some 18) kernelThunksNone cexText = cexText ∧
    containsSeq (fmtHex 18) cexText = true ∧
    containsSeq (fmtHex 18 ++ (' ' :: '<' :: (retThunkName ++ ['>'])))
      (symbolizeText (some 18) kernelThunksNone cexText) = false := by
  decide

theorem occursAtB_false_of_le (pat s : List Char) (hpat : pat ≠ []) (j : Nat)
    (h : s.length ≤ j) : occursAtB pat s j = false := by
  unfold occursAtB
  rw [List.drop_eq_nil_of_le h]
  cases pat with
  | nil => exact absurd rfl hpat
  | cons c cs => rfl

theorem replaceGo_fuel (pat rep : List Char) (hpat : pat ≠ []) :
    ∀ (f1 : Nat) (s : List Char) (f2 : Nat), s.length ≤ f1 → s.length ≤ f2 →
      replaceGo pat rep f1 s = replaceGo pat rep f2 s := by
  intro f1
  induction f1 with
  | zero =>
    intro s f2 h1 h2
    have hs : s = [] := List.eq_nil_of_length_eq_zero (by omega)
    subst hs
    cases f2 <;> rfl
  | succ f ih =>
    intro s f2 h1 h2
    cases s with
    | nil => cases f2 <;> rfl
    | cons c rest =>
      cases f2 with
      | zero => simp at h2
      | succ f2p =>
        have hplen : 1 ≤ pat.length := List.length_pos.mpr hpat
        simp only [replaceGo]
        by_cases hp : pat.isPrefixOf (c :: rest)
        · rw [if_pos hp, if_pos hp]
          congr 1
          apply ih
          · rw [List.length_drop]
            simp only [List.length_cons] at h1 ⊢
            omega
          · rw [List.length_drop]
            simp only [List.length_cons] at h2 ⊢
            omega
        · rw [if_neg hp, if_neg hp]
          congr 1
          apply ih
          · simp only [List.length_cons] at h1
            omega
          · simp only [List.length_cons] at h2
            omega

theorem replaceGo_of_no_occurrence (pat rep : List Char) (hpat : pat ≠ []) :
    ∀ (s : List Char) (f : Nat), s.length ≤ f →
      (∀ i, occursAtB pat s i = false) → replaceGo pat rep f s = s := by
  intro s
  induction s with
  | nil => intro f h hocc; cases f <;> rfl
  | cons c rest ih =>
    intro f h hocc
    cases f with
    | zero => simp at h
    | succ fp =>
      have h0 : pat.isPrefixOf (c :: rest) = false := by
        have := hocc 0
        simpa [occursAtB] using this
      simp only [replaceGo]
      rw [if_neg (by simp [h0])]
      congr 1
      apply ih fp (by simp only [List.length_cons] at h; omega)
      intro i
      have := hocc (i + 1)
      simpa [occursAtB, List.drop_succ_cons] using this

theorem strReplace_first_occurrence (pat rep : List Char) (hpat : pat ≠ []) :
    ∀ (i : Nat) (s : List Char),
      occursAtB pat s i = true → (∀ j, j < i → occursAtB pat s j = false) →
      strReplace s pat rep
        = s.take i ++ rep ++ strReplace (s.drop (i + pat.length)) pat rep := by
  intro i
  induction i with
  | zero =>
    intro s hocc hfirst
    have hpre : pat.isPrefixOf s = true := by simpa [occursAtB] using hocc
    have hplen : 1 ≤ pat.length := List.length_pos.mpr hpat
    cases s with
    | nil =>
      cases pat with
      | nil => exact absurd rfl hpat
      | cons c cs => simp [List.isPrefixOf] at hpre
    | cons c rest =>
      unfold strReplace
      simp only [List.length_cons]
      rw [show replaceGo pat rep (rest.length + 1) (c :: rest)
          = rep ++ replaceGo pat rep rest.length (List.drop pat.length (c :: rest)) from by
        simp only [replaceGo]
        rw [if_pos (by simp [hpre])]]
      simp only [List.take_zero, List.nil_append, Nat.zero_add]
      congr 1
      apply replaceGo_fuel pat rep hpat
      · rw [List.length_drop]
        simp only [List.length_cons]
        omega
      · rw [List.length_drop]
  | succ ip ih =>
    intro s hocc hfirst
    cases s with
    | nil =>
      rw [occursAtB_false_of_le pat [] hpat (ip + 1) (by simp)] at hocc
      exact absurd hocc (by simp)
    | cons c rest =>
      have h0 : pat.isPrefixOf (c :: rest) = false := by
        have := hfirst 0 (by omega)
        simpa [occursAtB] using this
      unfold strReplace
      simp only [List.length_cons]
      rw [show replaceGo pat rep (rest.length + 1) (c :: rest)
          = c :: replaceGo pat rep rest.length rest from by
        simp only [replaceGo]
        rw [if_neg (by simp [h0])]]
      have hrec := ih rest
        (by simpa [occursAtB, List.drop_succ_cons] using hocc)
        (fun j hj => by
          have := hfirst (j + 1) (by omega)
          simpa [occursAtB, List.drop_succ_cons] using this)
      rw [show replaceGo pat rep rest.length rest = strReplace rest pat rep from rfl]
      rw [hrec, show ip + 1 + pat.length = ip + pat.length + 1 from by omega]
      simp [List.take_succ_cons, List.drop_succ_cons]
      unfold strReplace
      rw [List.length_drop]

theorem symbolize_foldl_none (thunks : ThunkList)
    (h : ∀ p ∈ thunks, p.2 = none) :
    ∀ t, thunks.foldl
      (fun acc p =>
        match p.2 with
        | some a => strReplace acc (fmtHex a) (fmtHex a ++ (' ' :: '<' :: (p.1 ++ ['>'])))
        | none => acc) t = t := by
  induction thunks with
  | nil => intro t; rfl
  | cons p rest ih =>
    intro t
    have hp : p.2 = none := h p (by simp)
    simp only [List.foldl_cons, hp]
    exact ih (fun q hq => h q (by simp [hq])) t

/-- C6 amended: before printing, for each indirect thunk with a known
VA every occurrence of `0x<va>` is replaced by `0x<va> <name>`; the
ret-thunk address, however, is symbolized only at occurrences of
`0x<rt>;` — immediately followed by a semicolon — which become
`0x<rt> <__x86_return_thunk>;`; a bare occurrence of the ret-thunk hex
string is left unchanged.  Formally: with no indirect thunk VA known,
the text is unchanged when `0x<rt>;` does not occur and rewritten at
its leftmost occurrence when it does; and a single known indirect thunk
rewrites the leftmost occurrence of its bare `0x<va>` (recursing on the
remaining text). -/
theorem symbolizeText_ret_semantics (rt : Nat) (thunks : ThunkList)
    (text : List Char) (i : Nat)
    (hth : ∀ p ∈ thunks, p.2 = none) :
    ((∀ j, j < text.length → occursAtB (retPat rt) text j = false) →
      symbolizeText (some rt) thunks text = text) ∧
    (occursAtB (retPat rt) text i = true →
      (∀ j, j < i → occursAtB (retPat rt) text j = false) →
      symbolizeText (some rt) thunks text
        = text.take i ++ retRep rt
            ++ strReplace (text.drop (i + (retPat rt).length)) (retPat rt) (retRep rt)) ∧
    (∀ (name : List Char) (va : Nat),
      occursAtB (fmtHex va) text i = true →
      (∀ j, j < i → occursAtB (fmtHex va) text j = false) →
      symbolizeText none [(name, some va)] text
        = text.take i ++ (fmtHex va ++ (' ' :: '<' :: (name ++ ['>'])))
            ++ strReplace (text.drop (i + (fmtHex va).length)) (fmtHex va)
                (fmtHex va ++ (' ' :: '<' :: (name ++ ['>'])))) := by
  have hpatne : retPat rt ≠ [] := by simp [retPat]
  have hsym : symbolizeText (some rt) thunks text
      = strReplace text (retPat rt) (retRep rt) :=
    symbolize_foldl_none thunks hth (strReplace text (retPat rt) (retRep rt))
  refine ⟨?_, ?_, ?_⟩
  · intro hno
    rw [hsym]
    apply replaceGo_of_no_occurrence (retPat rt) (retRep rt) hpatne text
      text.length (Nat.le_refl _)
    intro j
    by_cases hj : j < text.length
    · exact hno j hj
    · exact occursAtB_false_of_le (retPat rt) text hpatne j (by omega)
  · intro hocc hfirst
    rw [hsym]
    exact strReplace_first_occurrence (retPat rt) (retRep rt) hpatne i text hocc hfirst
  · intro name va hocc hfirst
    exact strReplace_first_occurrence (fmtHex va)
      (fmtHex va ++ (' ' :: '<' :: (name ++ ['>']))) (by simp [fmtHex]) i text
      hocc hfirst

/-- `jmp 0x12; ret;`: gadget text with `0x12;` (and `0x12`) first
occurring at position 4. -/
def jmpText : List Char :=
  ['j', 'm', 'p', ' ', '0', 'x', '1', '2', ';', ' ', 'r', 'e', 't', ';']

/-- The name `__x86_indirect_thunk_rax`. -/
def thunkRaxName : List Char :=
  ['_', '_', 'x', '8', '6', '_', 'i', 'n', 'd', 'i', 'r', 'e', 'c', 't',
   '_', 't', 'h', 'u', 'n', 'k', '_', 'r', 'a', 'x']

/-- C6 amended witness: `jmp 0x12; ret;` with ret-thunk VA 0x12 and
with a single known indirect thunk at 0x12, occurrence position 4. -/
theorem symbolizeText_ret_semantics_witness :
    ((∀ j, j < jmpText.length → occursAtB (retPat 18) jmpText j = false) →
      symbolizeText (some 18) kernelThunksNone jmpText = jmpText) ∧
    (symbolizeText (some 18) kernelThunksNone jmpText
      = jmpText.take 4 ++ retRep 18
          ++ strReplace (jmpText.drop (4 + (retPat 18).length)) (retPat 18) (retRep 18)) ∧
    (symbolizeText none [(thunkRaxName, some 18)] jmpText
      = jmpText.take 4 ++ (fmtHex 18 ++ (' ' :: '<' :: (thunkRaxName ++ ['>'])))
          ++ strReplace (jmpText.drop (4 + (fmtHex 18).length)) (fmtHex 18)
              (fmtHex 18 ++ (' ' :: '<' :: (thunkRaxName ++ ['>'])))) := by
  have h := symbolizeText_ret_semantics 18 kernelThunksNone jmpText 4 (by decide)
  exact ⟨h.1, h.2.1 (by decide) (by decide),
    h.2.2 thunkRaxName 18 (by decide) (by decide)⟩

/-! ## ropr.rs: the output path of `write_gadgets` and `main` -/

/-- Model of the process stdout used by `write_gadgets`: a pipe that
accepts `pipeRemaining` more lines and then fails every write (EPIPE
once the reader has closed), behind the `BufWriter` that `main` wraps
around stdout, which holds up to `bufCap` lines before flushing.
Modelled from std semantics: a failed flush keeps the unwritten lines
buffered. -/
structure OutState where
  bufCap : Nat
  buffered : List (List Char)
  pipeRemaining : Nat
  deriving DecidableEq

/-- `BufWriter::flush_buf`: write buffered lines until the pipe fails;
the unwritten suffix stays buffered and the failure is reported. -/
def flushBuf (st : OutState) : OutState × Bool :=
  if st.buffered.length ≤ st.pipeRemaining then
    ({ st with buffered := [], pipeRemaining := st.pipeRemaining - st.buffered.length }, true)
  else
    ({ st with buffered := st.buffered.drop st.pipeRemaining, pipeRemaining := 0 }, false)

/-- `writeln!(w, ..)` through the `BufWriter`: buffer the line, and
flush when the buffer has reached its capacity. -/
def writelnBuf (st : OutState) (line : List Char) : OutState × Bool :=
  let st2 : OutState := { st with buffered := st.buffered ++ [line] }
  if st2.bufCap ≤ st2.buffered.length then flushBuf st2 else (st2, true)

/-- The output loop of `write_gadgets` (default unsorted path): on
`Err(_)` the error is swallowed and the loop just stops
(`// Pipe closed - finished writing gadgets`). -/
def writeGadgetsLoop (st : OutState) : List (List Char) → OutState
  | [] => st
  | l :: rest =>
    match writelnBuf st l with
    | (st2, true) => writeGadgetsLoop st2 rest
    | (st2, false) => st2

/-- `main`'s tail after `write_gadgets`:
`stdout.into_inner()?.flush()?` — `into_inner` flushes the buffered
lines and `?` propagates a failure, so `main` returns `Err` and the
process exits 1; otherwise `main` ends with `Ok(())` and exit code 0. -/
def mainExitCode (bufCap pipeRemaining : Nat)
    (lines : List (List Char)) : Nat :=
  let st1 := writeGadgetsLoop ⟨bufCap, [], pipeRemaining⟩ lines
  if (flushBuf st1).2 then 0 else 1

/-- C8: evaluating the output path at a closed pipe.  `write_gadgets`
itself swallows the broken-pipe error (its `Err(_) => return` arm, and
the claim, treat it as normal termination), but `main` then runs
`stdout.into_inner()?.flush()?`, which re-flushes the still-buffered
lines, hits the broken pipe again and propagates the error: the
process exits 1, not 0 — with a single-line buffer, and equally with a
large buffer that never flushed during the loop. -/
theorem broken_pipe_exit_nonzero :
    mainExitCode 1 0 [['r', 'e', 't', ';']] = 1 ∧
    mainExitCode 8192 0 [['r', 'e', 't', ';']] = 1 ∧
    (1 : Nat) ≠ 0 := by
  decide

end Kropr
